import Mathlib

/-!
Verification of the parsy combinator core.

The Python module `parsy/__init__.py` is shallowly embedded below.  Python
strings are modelled as `List Char` (indices are character offsets; Python
indexing and slicing on `str` is character based).  Python `int` fields of
`Result` are modelled as `Int` (the constructors use the sentinel `-1`).
Python `None` stored in the `value` field of a failure `Result` is modelled
by `Option` with `none`; expectation label sets (`frozenset[str]`) are
modelled as `Finset String`.  A raised `ParseError` is modelled by the
`Except` error branch of the top-level entry points.
-/

namespace Parsy

/-- Python helper `noop`: the identity, default `transform` of `string`. -/
def noop (val : α) : α := val

/-- Python dataclass `ParseState(stream, index)` (frozen, i.e. immutable).
The index of every reachable state is nonnegative, so it is a `Nat`. -/
structure ParseState where
  stream : List Char
  index : Nat
deriving DecidableEq, Repr

/-- Python `ParseState.start(stream)`: position 0. -/
def ParseState.start (stream : List Char) : ParseState :=
  ParseState.mk stream 0

/-- Python `ParseState.at(index)`: same stream at the given index.  The
callers always pass the `index` of a success `Result`, which is a
nonnegative `Int`, hence the exact conversion `Int.toNat`. -/
def ParseState.at (self : ParseState) (index : Int) : ParseState :=
  ParseState.mk self.stream index.toNat

/-- Python dataclass `Result(status, index, value, furthest, expected)`. -/
structure Result (α : Type) where
  status : Bool
  index : Int
  value : Option α
  furthest : Int
  expected : Finset String

/-- Field-wise decidable equality for `Result`.  (Written without transport
along the propositional `Finset` equality of the `expected` fields, so that
it evaluates by kernel reduction.) -/
instance [DecidableEq α] : DecidableEq (Result α) := fun a b =>
  decidable_of_iff
    (a.status = b.status ∧ a.index = b.index ∧ a.value = b.value
      ∧ a.furthest = b.furthest ∧ a.expected = b.expected)
    (by cases a; cases b; simp)

/-- Python `Result.success(index, value)`. -/
def Result.success (index : Int) (value : α) : Result α :=
  Result.mk true index (some value) (-1) ∅

/-- Python `Result.failure(index, expected)`.  The stored `value` is the
Python `None`, modelled as `none`, so a failure inhabits any result type. -/
def Result.failure (index : Int) (expected : String) : Result α :=
  Result.mk false (-1) none index {expected}

/-- Python `Result.aggregate(self, other)`: collect the furthest failure
from `self` and `other`.  In Python `other` is `Optional[Result[Any]]`,
so the second argument may have any value type. -/
def Result.aggregate (self : Result α) (other : Option (Result β)) : Result α :=
  match other with
  | none => self
  | some o =>
    if self.furthest > o.furthest then
      self
    else if self.furthest = o.furthest then
      Result.mk self.status self.index self.value self.furthest (self.expected ∪ o.expected)
    else
      Result.mk self.status self.index self.value o.furthest o.expected

/-- Python returns a failure `Result[T1]` where a `Result[T2]` is expected
(`return result  # type: ignore`); the stored value is `None` in that case.
This helper is the corresponding change of value type. -/
def Result.recast (self : Result α) : Result β :=
  Result.mk self.status self.index none self.furthest self.expected

/-- Reading the `value` attribute of a `Result` known to be a success.  In
Python the attribute read is untyped; every success built by
`Result.success` stores `some value`, so the default is never returned on
the paths where the combinators read it. -/
def Result.value! [Inhabited α] (self : Result α) : α :=
  self.value.getD default

/-- A `Parser` wraps a function from `ParseState` to `Result`. -/
abbrev Parser (α : Type) : Type := ParseState → Result α

/-- The greatest index at which the character `c` occurs in `l`, and `-1`
when it does not occur: an occurrence in the tail wins over the head. -/
def rfindList (c : Char) : List Char → Int
  | [] => -1
  | x :: xs =>
    let r := rfindList c xs
    if r ≥ 0 then r + 1
    else if x = c then 0
    else -1

/-- Python `line_info_at` uses `str.rfind(sub, 0, end)` with a single
character needle: the greatest index `j < end` (clamped to the length) at
which the character occurs, and `-1` when there is none. -/
def rfind (c : Char) (l : List Char) (stop : Nat) : Int :=
  rfindList c (l.take stop)

/-- Python `line_info_at(state)`: `line` counts the newline characters
strictly before `state.index`; `col` is the offset from the character after
the last preceding newline (`state.index - (last_nl + 1)`, where `last_nl`
is `-1` when there is no preceding newline).  Python raises `ValueError`
when `state.index > len(state.stream)`; the function is only used, and only
characterized below, under that bound. -/
def line_info_at (state : ParseState) : Nat × Nat :=
  ((state.stream.take state.index).count '\n',
    state.index - (rfind '\n' state.stream state.index + 1).toNat)

/-- The apostrophe character (Python quote of choice for `repr`). -/
def squote : Char := Char.ofNat 39

/-- The double-quote character. -/
def dquote : Char := Char.ofNat 34

/-- The backslash character. -/
def backslash : Char := Char.ofNat 92

/-- Escaping of one character inside a Python string `repr` delimited by
`quote`.  Escapes of characters outside the printable subset relevant here
(hex and unicode escapes) are not modelled. -/
def pyReprEsc (quote c : Char) : List Char :=
  if c = backslash then [backslash, backslash]
  else if c = quote then [backslash, quote]
  else if c = '\n' then [backslash, 'n']
  else if c = '\r' then [backslash, 'r']
  else if c = '\t' then [backslash, 't']
  else [c]

/-- Python `repr` of a string: apostrophe quotes, unless the string contains
an apostrophe and no double quote, in which case double quotes. -/
def pyRepr (s : String) : String :=
  let quote := if s.toList.contains squote && !(s.toList.contains dquote) then dquote else squote
  String.mk ([quote] ++ (s.toList.map (pyReprEsc quote)).flatten ++ [quote])

/-- Python class `ParseError(RuntimeError)` with fields `expected` and
`state`; raising it is modelled by the `Except` error branch. -/
structure ParseError where
  expected : Finset String
  state : ParseState

/-- Field-wise decidable equality for `ParseError`, kernel computable. -/
instance : DecidableEq ParseError := fun a b =>
  decidable_of_iff (a.expected = b.expected ∧ a.state = b.state)
    (by cases a; cases b; simp)

/-- Decidable equality for `Except`, kernel computable. -/
instance {ε α : Type} [DecidableEq ε] [DecidableEq α] : DecidableEq (Except ε α) := fun a b =>
  match a, b with
  | Except.error e1, Except.error e2 => decidable_of_iff (e1 = e2) (by simp)
  | Except.error _, Except.ok _ => isFalse (fun h => Except.noConfusion h)
  | Except.ok v1, Except.ok v2 => decidable_of_iff (v1 = v2) (by simp)
  | Except.ok _, Except.error _ => isFalse (fun h => Except.noConfusion h)

/-- Python `ParseError.line_info`: `"line:col"` from `line_info_at`.  (The
`except` clause for non-string streams cannot trigger in this model.) -/
def ParseError.line_info (self : ParseError) : String :=
  toString (line_info_at self.state).1 ++ ":" ++ toString (line_info_at self.state).2

/-- Code point lexicographic comparison of character lists: the order by
which Python compares strings.  (Kernel computable, unlike the iterator
based order of the builtin `String` instances.) -/
def charsLe : List Char → List Char → Bool
  | [], _ => true
  | _ :: _, [] => false
  | x :: xs, y :: ys =>
    if x.toNat < y.toNat then true
    else if x.toNat = y.toNat then charsLe xs ys
    else false

/-- Code point lexicographic order on strings, as a proposition. -/
abbrev pyStrLe (a b : String) : Prop := charsLe a.toList b.toList = true

instance : DecidableRel pyStrLe := fun a b =>
  (inferInstance : Decidable (charsLe a.toList b.toList = true))

instance : IsTotal String pyStrLe where
  total a b := by
    show charsLe a.toList b.toList = true ∨ charsLe b.toList a.toList = true
    generalize a.toList = l1
    generalize b.toList = l2
    induction l1 generalizing l2 with
    | nil => exact Or.inl rfl
    | cons x xs ih =>
      cases l2 with
      | nil => exact Or.inr rfl
      | cons y ys =>
        by_cases h1 : x.toNat < y.toNat
        · exact Or.inl (by simp [charsLe, h1])
        · by_cases h2 : x.toNat = y.toNat
          · cases ih ys with
            | inl h => exact Or.inl (by simp [charsLe, h1, h2, h])
            | inr h =>
              refine Or.inr ?_
              have hn : ¬ y.toNat < x.toNat := by omega
              simp [charsLe, hn, h2.symm, h]
          · refine Or.inr ?_
            have hy : y.toNat < x.toNat := by omega
            simp [charsLe, hy]

instance : IsTrans String pyStrLe where
  trans a b c hab hbc := by
    show charsLe a.toList c.toList = true
    have hab2 : charsLe a.toList b.toList = true := hab
    have hbc2 : charsLe b.toList c.toList = true := hbc
    generalize ha : a.toList = l1 at hab2 ⊢
    generalize hb : b.toList = l2 at hab2 hbc2
    generalize hc : c.toList = l3 at hbc2 ⊢
    clear hab hbc ha hb hc
    revert hab2 hbc2
    induction l1 generalizing l2 l3 with
    | nil => intro _ _; rfl
    | cons x xs ih =>
      intro hab2 hbc2
      cases l2 with
      | nil => simp [charsLe] at hab2
      | cons y ys =>
        cases l3 with
        | nil => simp [charsLe] at hbc2
        | cons z zs =>
          simp only [charsLe] at hab2 hbc2 ⊢
          by_cases hxy : x.toNat < y.toNat
          · by_cases hyz : y.toNat < z.toNat
            · simp [show x.toNat < z.toNat by omega]
            · by_cases hyz2 : y.toNat = z.toNat
              · simp [show x.toNat < z.toNat by omega]
              · simp [hyz, hyz2] at hbc2
          · by_cases hxy2 : x.toNat = y.toNat
            · by_cases hyz : y.toNat < z.toNat
              · simp [show x.toNat < z.toNat by omega]
              · by_cases hyz2 : y.toNat = z.toNat
                · simp [hxy, hxy2] at hab2
                  simp [hyz, hyz2] at hbc2
                  have hxz : ¬ x.toNat < z.toNat := by omega
                  simp [hxz, show x.toNat = z.toNat by omega]
                  exact ih ys zs hab2 hbc2
                · simp [hyz, hyz2] at hbc2
            · simp [hxy, hxy2] at hab2

instance : IsAntisymm String pyStrLe where
  antisymm a b hab hba := by
    have hab2 : charsLe a.toList b.toList = true := hab
    have hba2 : charsLe b.toList a.toList = true := hba
    have key : a.toList = b.toList := by
      generalize ha : a.toList = l1 at hab2 hba2 ⊢
      generalize hb : b.toList = l2 at hab2 hba2 ⊢
      clear ha hb hab hba
      revert hab2 hba2
      induction l1 generalizing l2 with
      | nil =>
        intro _ hba2
        cases l2 with
        | nil => rfl
        | cons y ys => simp [charsLe] at hba2
      | cons x xs ih =>
        intro hab2 hba2
        cases l2 with
        | nil => simp [charsLe] at hab2
        | cons y ys =>
          simp only [charsLe] at hab2 hba2
          by_cases hxy : x.toNat < y.toNat
          · simp [show ¬ y.toNat < x.toNat by omega,
              show ¬ y.toNat = x.toNat by omega] at hba2
          · by_cases hxy2 : x.toNat = y.toNat
            · have hx : x = y := Char.ext (UInt32.ext hxy2)
              simp [hxy, hxy2] at hab2
              simp [show ¬ y.toNat < x.toNat by omega, hxy2.symm] at hba2
              rw [hx, ih ys hab2 hba2]
            · simp [hxy, hxy2] at hab2
    exact String.toList_inj.mp key

/-- Python `sorted` on the distinct strings of a multiset: the sorted list
in code point lexicographic order, which is how Python compares strings.
Insertion sort is used because it computes by structural recursion; on a
multiset of distinct strings every sorting algorithm returns this list. -/
def sortedStrings (s : Multiset String) : List String :=
  Quot.liftOn s (fun l => List.insertionSort pyStrLe l) (fun l₁ l₂ h =>
    List.eq_of_perm_of_sorted
      ((List.perm_insertionSort pyStrLe l₁).trans
        (h.trans (List.perm_insertionSort pyStrLe l₂).symm))
      (List.sorted_insertionSort pyStrLe l₁)
      (List.sorted_insertionSort pyStrLe l₂))

/-- The list `sorted(repr(e) for e in self.expected)` of Python
`ParseError.__str__`.  Python `repr` is injective on strings, so the
multiset of the reprs of the distinct labels is the image finset. -/
def ParseError.expected_list (self : ParseError) : List String :=
  sortedStrings (self.expected.image pyRepr).val

/-- Python `ParseError.__str__`. -/
def ParseError.str (self : ParseError) : String :=
  if self.expected_list.length = 1 then
    "expected " ++ self.expected_list.head! ++ " at " ++ self.line_info
  else
    "expected one of " ++ String.intercalate ", " self.expected_list ++ " at " ++ self.line_info

/-- Python `Parser.parse_partial(stream)` (the trailing underscore is only
a naming restriction here): run on the whole input from position 0, return
the value and the unconsumed remainder, or the `ParseError` carrying the
expected labels at the furthest failure. -/
def Parser.parse_partial_ [Inhabited α] (self : Parser α) (stream : List Char) :
    Except ParseError (α × List Char) :=
  let result := self (ParseState.start stream)
  if result.status then
    Except.ok (result.value!, stream.drop result.index.toNat)
  else
    Except.error (ParseError.mk result.expected (ParseState.mk stream result.furthest.toNat))

/-- Python `Parser.bind(bind_fn)`. -/
def Parser.bind [Inhabited α] (self : Parser α) (bind_fn : α → Parser β) : Parser β :=
  fun state =>
    let result := self state
    if result.status then
      (bind_fn result.value! (state.at result.index)).aggregate (some result)
    else
      result.recast

/-- Python `success(val)`: the always succeeding parser. -/
def success (val : α) : Parser α :=
  fun state => Result.success state.index val

/-- Python `fail(expected)`: the always failing parser. -/
def fail (expected : String) : Parser Unit :=
  fun state => Result.failure state.index expected

/-- Python `Parser.map(map_fn)`. -/
def Parser.map [Inhabited α] (self : Parser α) (map_fn : α → β) : Parser β :=
  self.bind (fun res => success (map_fn res))

/-- Python `Parser.__and__` (`&`): sequence keeping both values. -/
def Parser.and [Inhabited α] [Inhabited β] (self : Parser α) (other : Parser β) :
    Parser (α × β) :=
  fun state =>
    let self_result := self state
    if self_result.status then
      let other_result := (other (ParseState.mk state.stream self_result.index.toNat)).aggregate (some self_result)
      if other_result.status then
        (Result.success other_result.index (self_result.value!, other_result.value!)).aggregate
          (some other_result)
      else
        other_result.recast
    else
      self_result.recast

/-- Python `Parser.then` (`>>`): sequence keeping the right value.  (`then`
is a reserved word here, hence the underscore.) -/
def Parser.then_ [Inhabited α] [Inhabited β] (self : Parser α) (other : Parser β) : Parser β :=
  (self.and other).map (fun t => t.2)

/-- Python `Parser.skip` (`<<`): sequence keeping the left value. -/
def Parser.skip [Inhabited α] [Inhabited β] (self : Parser α) (other : Parser β) : Parser α :=
  (self.and other).map (fun t => t.1)

/-- Python `Parser.__or__` (`|`): ordered choice.  Python types it over a
union of the two value types; it is modelled over a common value type. -/
def Parser.or (self other : Parser α) : Parser α :=
  fun state =>
    let result1 := (self state).aggregate (none : Option (Result α))
    if result1.status then
      result1
    else
      (other state).aggregate (some result1)

/-- The loop of Python `Parser.times`.  The loop condition `times < the_max`
is realized by the fuel argument, which starts at `the_max` and decreases
exactly when `times` increases. -/
def Parser.timesAux [Inhabited α] (self : Parser α) (min : Nat) :
    Nat → ParseState → List α → Nat → Option (Result α) → Result (List α)
  | 0, state, values, _times, result =>
    (Result.success state.index values).aggregate result
  | fuel + 1, state, values, times, prev =>
    let result := (self state).aggregate prev
    if result.status then
      Parser.timesAux self min fuel (state.at result.index) (values ++ [result.value!])
        (times + 1) (some result)
    else if min ≤ times then
      (Result.success state.index values).aggregate (some result)
    else
      result.recast

/-- Python `Parser.times(min, max=None)` with a finite bound: `the_max` is
`min` when `max` is `None`.  (The unbounded form, reachable in Python by
passing `float("inf")` and used by `many`/`at_least`/`until`, is a
potentially nonterminating loop and is outside this model.) -/
def Parser.times [Inhabited α] (self : Parser α) (min : Nat) (max : Option Nat) :
    Parser (List α) :=
  fun state => Parser.timesAux self min (max.getD min) state [] 0 none

/-- Python `Parser.desc(description)`: replace the failure by a failure at
the attempted position carrying the single given label. -/
def Parser.desc (self : Parser α) (description : String) : Parser α :=
  fun state =>
    let result := self state
    if result.status then result else Result.failure state.index description

/-- Python `Parser.should_fail(description)`: negative lookahead. -/
def Parser.should_fail (self : Parser α) (description : String) : Parser (Result α) :=
  fun state =>
    let res := self state
    if res.status then Result.failure state.index description
    else Result.success state.index res

/-- Python `string(s, transform=noop)`: match the literal `s`, optionally
under a normalization applied to both the input slice and `s`; the value is
always the canonical `s` and the advance is always `len(s)`. -/
def string (s : List Char) (transform : List Char → List Char) : Parser (List Char) :=
  fun state =>
    if transform ((state.stream.drop state.index).take s.length) = transform s then
      Result.success (state.index + s.length) s
    else
      Result.failure state.index (String.mk s)

/-- Python `test_char(func, description)`: single character predicate test.
A one-character Python string value is modelled as the `Char` itself. -/
def test_char (func : Char → Bool) (description : String) : Parser Char :=
  fun state =>
    if h : state.index < state.stream.length then
      if func (state.stream.get ⟨state.index, h⟩) then
        Result.success (state.index + 1) (state.stream.get ⟨state.index, h⟩)
      else Result.failure state.index description
    else Result.failure state.index description

/-- Python `eof`: succeed with value `None` (modelled `Unit`) exactly at or
beyond the end of the stream, else fail with label `"EOF"`. -/
def eof : Parser Unit :=
  fun state =>
    if state.stream.length ≤ state.index then Result.success state.index ()
    else Result.failure state.index "EOF"

/-- Python `index`: yield the current position without consuming. -/
def index : Parser Nat :=
  fun state => Result.success state.index state.index

/-- Python `peek(parser)`: zero-width lookahead. -/
def peek [Inhabited α] (parser : Parser α) : Parser α :=
  fun state =>
    let result := parser state
    if result.status then Result.success state.index result.value!
    else result

/-- Python `Parser.parse(stream)`: run `self << eof` as a longest-prefix
parse and keep the value. -/
def Parser.parse [Inhabited α] (self : Parser α) (stream : List Char) : Except ParseError α :=
  ((self.skip eof).parse_partial_ stream).map Prod.fst

/-- The closure of the modelled primitives and combinators: a parser is
`Built` when it is assembled from the library constructors below (with
arbitrary pure user-supplied functions).  The derived combinators
(`map`, `then`, `skip`, `result`, `optional`, `at_most`, ...) are
definitionally compositions of these. -/
inductive Built : {α : Type} → Parser α → Prop where
  | stringP (s : List Char) (transform : List Char → List Char) : Built (string s transform)
  | test_charP (func : Char → Bool) (description : String) : Built (test_char func description)
  | eofP : Built eof
  | successP {α : Type} (val : α) : Built (success val)
  | failP (expected : String) : Built (fail expected)
  | indexP : Built index
  | descP {α : Type} {p : Parser α} (description : String) :
      Built p → Built (p.desc description)
  | bindP {α β : Type} [Inhabited α] {p : Parser α} {f : α → Parser β} :
      Built p → (∀ v : α, Built (f v)) → Built (p.bind f)
  | orP {α : Type} {p q : Parser α} : Built p → Built q → Built (p.or q)
  | andP {α β : Type} [Inhabited α] [Inhabited β] {p : Parser α} {q : Parser β} :
      Built p → Built q → Built (p.and q)
  | timesP {α : Type} [Inhabited α] {p : Parser α} (min : Nat) (max : Option Nat) :
      Built p → Built (p.times min max)
  | peekP {α : Type} [Inhabited α] {p : Parser α} : Built p → Built (peek p)
  | should_failP {α : Type} {p : Parser α} (description : String) :
      Built p → Built (p.should_fail description)

/-- The positional soundness invariant: a success never moves the next
position before the attempted position, and a failure never records a
furthest position before the attempted position. -/
def Sound {α : Type} (p : Parser α) : Prop :=
  ∀ state : ParseState,
    ((p state).status = true → (state.index : Int) ≤ (p state).index)
    ∧ ((p state).status = false → (state.index : Int) ≤ (p state).furthest)

theorem Result.aggregate_none (a : Result α) :
    a.aggregate (none : Option (Result β)) = a := rfl

theorem Result.aggregate_some_status (a : Result α) (b : Result β) :
    (a.aggregate (some b)).status = a.status := by
  simp only [Result.aggregate]
  split_ifs <;> rfl

theorem Result.aggregate_some_index (a : Result α) (b : Result β) :
    (a.aggregate (some b)).index = a.index := by
  simp only [Result.aggregate]
  split_ifs <;> rfl

theorem Result.aggregate_some_value (a : Result α) (b : Result β) :
    (a.aggregate (some b)).value = a.value := by
  simp only [Result.aggregate]
  split_ifs <;> rfl

theorem Result.aggregate_some_furthest (a : Result α) (b : Result β) :
    (a.aggregate (some b)).furthest = max a.furthest b.furthest := by
  simp only [Result.aggregate]
  split_ifs <;> simp <;> omega

theorem Result.aggregate_status (a : Result α) (o : Option (Result β)) :
    (a.aggregate o).status = a.status := by
  cases o with
  | none => rfl
  | some b => exact a.aggregate_some_status b

theorem Result.aggregate_index (a : Result α) (o : Option (Result β)) :
    (a.aggregate o).index = a.index := by
  cases o with
  | none => rfl
  | some b => exact a.aggregate_some_index b

theorem Result.aggregate_furthest_ge (a : Result α) (o : Option (Result β)) :
    a.furthest ≤ (a.aggregate o).furthest := by
  cases o with
  | none => exact le_refl _
  | some b => rw [a.aggregate_some_furthest b]; exact le_max_left _ _

theorem sound_string (s : List Char) (tr : List Char → List Char) :
    Sound (string s tr) := by
  intro state
  by_cases h : tr ((state.stream.drop state.index).take s.length) = tr s <;>
    simp [string, h, Result.success, Result.failure]

theorem sound_test_char (func : Char → Bool) (description : String) :
    Sound (test_char func description) := by
  intro state
  unfold test_char
  split_ifs <;> constructor <;> intro h <;>
    simp_all [Result.success, Result.failure]

theorem sound_eof : Sound eof := by
  intro state
  by_cases h : state.stream.length ≤ state.index <;>
    simp [eof, h, Result.success, Result.failure]

theorem sound_success (val : α) : Sound (success val) := by
  intro state
  simp [success, Result.success]

theorem sound_fail (expected : String) : Sound (fail expected) := by
  intro state
  simp [fail, Result.failure]

theorem sound_index : Sound index := by
  intro state
  simp [index, Result.success]

theorem sound_desc {p : Parser α} (description : String) (hp : Sound p) :
    Sound (p.desc description) := by
  intro state
  unfold Parser.desc
  by_cases h : (p state).status
  · simp only [h, if_true]
    exact ⟨fun _ => (hp state).1 (by simp [h]), fun hf => absurd hf (by simp [h])⟩
  · simp only [h, if_false, Bool.false_eq_true]
    constructor
    · intro ht
      exact absurd ht (by simp [Result.failure])
    · intro _
      simp [Result.failure]

theorem sound_bind [Inhabited α] {p : Parser α} {f : α → Parser β}
    (hp : Sound p) (hf : ∀ v : α, Sound (f v)) : Sound (p.bind f) := by
  intro state
  unfold Parser.bind
  by_cases h : (p state).status
  · have h1 : (state.index : Int) ≤ (p state).index := (hp state).1 (by simp [h])
    have hidx : (((state.at (p state).index).index : Nat) : Int) = (p state).index := by
      simp only [ParseState.at]
      omega
    have hf2 := hf ((p state).value!) (state.at (p state).index)
    simp only [h, if_true]
    constructor
    · intro ht
      rw [Result.aggregate_some_index]
      rw [Result.aggregate_some_status] at ht
      calc (state.index : Int) ≤ (p state).index := h1
        _ ≤ _ := hidx ▸ hf2.1 ht
    · intro hfail
      rw [Result.aggregate_some_status] at hfail
      calc (state.index : Int) ≤ (p state).index := h1
        _ ≤ (f (p state).value! (state.at (p state).index)).furthest := hidx ▸ hf2.2 hfail
        _ ≤ _ := Result.aggregate_furthest_ge _ _
  · simp only [h, if_false, Bool.false_eq_true]
    constructor
    · intro ht
      exact absurd ht (by simp [Result.recast, h])
    · intro _
      exact (hp state).2 (by simp [h])

theorem sound_and [Inhabited α] [Inhabited β] {p : Parser α} {q : Parser β}
    (hp : Sound p) (hq : Sound q) : Sound (p.and q) := by
  intro state
  unfold Parser.and
  by_cases h : (p state).status
  · have h1 : (state.index : Int) ≤ (p state).index := (hp state).1 (by simp [h])
    have hq2 := hq (ParseState.mk state.stream (p state).index.toNat)
    have hidx : (((p state).index.toNat : Nat) : Int) = (p state).index := by omega
    simp only [h, if_true]
    by_cases h2 : ((q (ParseState.mk state.stream (p state).index.toNat)).aggregate
        (some (p state))).status
    · have hqt : (q (ParseState.mk state.stream (p state).index.toNat)).status = true := by
        rw [Result.aggregate_status] at h2
        simpa using h2
      have h3 : (state.index : Int) ≤
          (q (ParseState.mk state.stream (p state).index.toNat)).index := by
        calc (state.index : Int) ≤ (p state).index := h1
          _ ≤ _ := hidx ▸ hq2.1 hqt
      simp only [h2, if_true]
      constructor
      · intro _
        rw [Result.aggregate_some_index, Result.success, Result.aggregate_some_index]
        exact h3
      · intro hfail
        rw [Result.aggregate_some_status, Result.success] at hfail
        simp at hfail
    · have hqf : (q (ParseState.mk state.stream (p state).index.toNat)).status = false := by
        rw [Result.aggregate_status] at h2
        simpa using h2
      have haf : ((q (ParseState.mk state.stream (p state).index.toNat)).aggregate
          (some (p state))).status = false := by
        simpa using h2
      simp only [haf, Bool.false_eq_true, if_false]
      constructor
      · intro ht
        exact absurd ht (by simp [Result.recast, haf])
      · intro _
        have h4 : (state.index : Int) ≤
            (q (ParseState.mk state.stream (p state).index.toNat)).furthest := by
          calc (state.index : Int) ≤ (p state).index := h1
            _ ≤ _ := hidx ▸ hq2.2 hqf
        calc (state.index : Int)
            ≤ (q (ParseState.mk state.stream (p state).index.toNat)).furthest := h4
          _ ≤ ((q (ParseState.mk state.stream (p state).index.toNat)).aggregate
                (some (p state))).furthest := Result.aggregate_furthest_ge _ _
          _ = _ := rfl
  · simp only [h, if_false, Bool.false_eq_true]
    constructor
    · intro ht
      exact absurd ht (by simp [Result.recast, h])
    · intro _
      exact (hp state).2 (by simp [h])

theorem sound_or {p q : Parser α} (hp : Sound p) (hq : Sound q) : Sound (p.or q) := by
  intro state
  unfold Parser.or
  rw [Result.aggregate_none]
  by_cases h : (p state).status
  · simp only [h, if_true]
    exact ⟨fun _ => (hp state).1 (by simp [h]), fun hf => absurd hf (by simp [h])⟩
  · simp only [h, if_false, Bool.false_eq_true]
    constructor
    · intro ht
      rw [Result.aggregate_some_index]
      rw [Result.aggregate_some_status] at ht
      exact (hq state).1 ht
    · intro hf
      rw [Result.aggregate_some_status] at hf
      calc (state.index : Int) ≤ (q state).furthest := (hq state).2 hf
        _ ≤ _ := Result.aggregate_furthest_ge _ _

theorem sound_timesAux [Inhabited α] {p : Parser α} (hp : Sound p) (min : Nat) :
    ∀ (fuel : Nat) (state : ParseState) (values : List α) (times : Nat)
      (prev : Option (Result α)),
      ((Parser.timesAux p min fuel state values times prev).status = true →
        (state.index : Int) ≤ (Parser.timesAux p min fuel state values times prev).index)
      ∧ ((Parser.timesAux p min fuel state values times prev).status = false →
        (state.index : Int) ≤ (Parser.timesAux p min fuel state values times prev).furthest) := by
  intro fuel
  induction fuel with
  | zero =>
    intro state values times prev
    constructor
    · intro _
      rw [Parser.timesAux, Result.aggregate_index, Result.success]
    · intro hf
      rw [Parser.timesAux, Result.aggregate_status, Result.success] at hf
      simp at hf
  | succ n ih =>
    intro state values times prev
    by_cases h : ((p state).aggregate prev).status
    · have hpt : (p state).status = true := by
        rw [Result.aggregate_status] at h
        simpa using h
      have h1 : (state.index : Int) ≤ (p state).index := (hp state).1 hpt
      have hagg : ((p state).aggregate prev).index = (p state).index :=
        Result.aggregate_index _ _
      have hidx : (((state.at ((p state).aggregate prev).index).index : Nat) : Int)
          = (p state).index := by
        simp only [ParseState.at, hagg]
        omega
      have ih2 := ih (state.at ((p state).aggregate prev).index)
        (values ++ [((p state).aggregate prev).value!]) (times + 1)
        (some ((p state).aggregate prev))
      constructor
      · intro ht
        rw [Parser.timesAux] at ht ⊢
        simp only [h, if_true] at ht ⊢
        calc (state.index : Int) ≤ (p state).index := h1
          _ ≤ _ := hidx ▸ ih2.1 ht
      · intro hf
        rw [Parser.timesAux] at hf ⊢
        simp only [h, if_true] at hf ⊢
        calc (state.index : Int) ≤ (p state).index := h1
          _ ≤ _ := hidx ▸ ih2.2 hf
    · have hpf : (p state).status = false := by
        rw [Result.aggregate_status] at h
        simpa using h
      by_cases hmin : min ≤ times
      · constructor
        · intro _
          rw [Parser.timesAux]
          simp only [h, if_false, hmin, if_true, Bool.false_eq_true]
          rw [Result.aggregate_some_index, Result.success]
        · intro hf
          rw [Parser.timesAux] at hf
          simp only [h, if_false, hmin, if_true, Bool.false_eq_true] at hf
          rw [Result.aggregate_some_status, Result.success] at hf
          simp at hf
      · constructor
        · intro ht
          rw [Parser.timesAux] at ht
          simp only [h, if_false, hmin, Bool.false_eq_true] at ht
          exact absurd ht (by simp [Result.recast, h])
        · intro _
          rw [Parser.timesAux]
          simp only [h, if_false, hmin, Bool.false_eq_true]
          rw [Result.recast]
          calc (state.index : Int) ≤ (p state).furthest := (hp state).2 hpf
            _ ≤ _ := Result.aggregate_furthest_ge _ _

theorem sound_times [Inhabited α] {p : Parser α} (min : Nat) (max : Option Nat)
    (hp : Sound p) : Sound (p.times min max) := by
  intro state
  exact sound_timesAux hp min (max.getD min) state [] 0 none

theorem sound_peek [Inhabited α] {p : Parser α} (hp : Sound p) : Sound (peek p) := by
  intro state
  unfold peek
  by_cases h : (p state).status <;> simp only [h, if_true, if_false, Bool.false_eq_true]
  · simp [Result.success]
  · exact ⟨fun ht => absurd ht (by simp [h]), fun _ => (hp state).2 (by simp [h])⟩

theorem sound_should_fail {p : Parser α} (description : String) :
    Sound (p.should_fail description) := by
  intro state
  unfold Parser.should_fail
  by_cases h : (p state).status <;>
    simp [h, Result.success, Result.failure]

theorem sound_of_built : ∀ {α : Type} {p : Parser α}, Built p → Sound p := by
  intro α p h
  induction h with
  | stringP s tr => exact sound_string s tr
  | test_charP func description => exact sound_test_char func description
  | eofP => exact sound_eof
  | successP val => exact sound_success val
  | failP expected => exact sound_fail expected
  | indexP => exact sound_index
  | descP description _ ih => exact sound_desc description ih
  | bindP _ _ ihp ihf => exact sound_bind ihp ihf
  | orP _ _ ihp ihq => exact sound_or ihp ihq
  | andP _ _ ihp ihq => exact sound_and ihp ihq
  | timesP min max _ ih => exact sound_times min max ih
  | peekP _ ih => exact sound_peek ih
  | should_failP description _ => exact sound_should_fail description

/-- Claim C1, counterexample.  With `a = Result.success 5 []` (furthest
`-1`) and `b = Result.failure 3 "x"` (furthest `3`), the claim predicts
`aggregate(a, b) = b` (the strictly greater furthest wins and the other
Result is discarded entirely) and commutativity; in fact `aggregate` keeps
the status, index and value of its first argument, so the outcome is
neither `b` nor symmetric in the arguments. -/
theorem aggregate_claim_counterexample :
    ((Result.success 5 ([] : List Char)).aggregate
        (some (Result.failure 3 "x" : Result (List Char)))
      ≠ (Result.failure 3 "x" : Result (List Char)))
    ∧ ((Result.success 5 ([] : List Char)).aggregate
        (some (Result.failure 3 "x" : Result (List Char)))
      ≠ (Result.failure 3 "x" : Result (List Char)).aggregate
          (some (Result.success 5 ([] : List Char)))) := by
  decide

/-- Claim C1, amended.  `aggregate(a, b)` with `b` absent returns `a`; it
always keeps the status, index and value of `a`; only the failure
bookkeeping follows the greater-furthest rule: the resulting furthest is
the maximum, the expected set is that of the strictly further argument and
the union on a tie, and this `(furthest, expected)` outcome is commutative
in the two arguments.  When both arguments are failure Results as built by
`Result.failure`, the whole claim holds: the aggregate equals the failure
with the strictly greater furthest (the other is discarded entirely),
labels are unioned on a tie, and the outcome is order-independent. -/
theorem aggregate_bookkeeping_amended :
    (∀ (α β : Type) (a : Result α) (b : Result β),
      a.aggregate (none : Option (Result β)) = a
      ∧ (a.aggregate (some b)).status = a.status
      ∧ (a.aggregate (some b)).index = a.index
      ∧ (a.aggregate (some b)).value = a.value
      ∧ (a.aggregate (some b)).furthest = max a.furthest b.furthest
      ∧ (b.furthest < a.furthest → (a.aggregate (some b)).expected = a.expected)
      ∧ (a.furthest = b.furthest →
          (a.aggregate (some b)).expected = a.expected ∪ b.expected)
      ∧ (a.furthest < b.furthest → (a.aggregate (some b)).expected = b.expected)
      ∧ (a.aggregate (some b)).furthest = (b.aggregate (some a)).furthest
      ∧ (a.aggregate (some b)).expected = (b.aggregate (some a)).expected)
    ∧ (∀ (α : Type) (i j : Int) (x y : String), j < i →
        (Result.failure i x : Result α).aggregate (some (Result.failure j y : Result α))
          = Result.failure i x
        ∧ (Result.failure j y : Result α).aggregate (some (Result.failure i x : Result α))
          = Result.failure i x)
    ∧ (∀ (α : Type) (i : Int) (x y : String),
        (Result.failure i x : Result α).aggregate (some (Result.failure i y : Result α))
          = Result.mk false (-1) none i ({x} ∪ {y})
        ∧ ({x} ∪ {y} : Finset String) = {y} ∪ {x}) := by
  refine ⟨fun α β a b => ⟨rfl, a.aggregate_some_status b, a.aggregate_some_index b,
    a.aggregate_some_value b, a.aggregate_some_furthest b, ?_, ?_, ?_, ?_, ?_⟩, ?_, ?_⟩
  · intro h
    simp only [Result.aggregate]
    rw [if_pos (by omega)]
  · intro h
    simp only [Result.aggregate]
    rw [if_neg (by omega), if_pos h]
  · intro h
    simp only [Result.aggregate]
    rw [if_neg (by omega), if_neg (by omega)]
  · rw [a.aggregate_some_furthest b, b.aggregate_some_furthest a]
    omega
  · simp only [Result.aggregate]
    split_ifs <;> first | rfl | omega | exact Finset.union_comm _ _
  · intro α i j x y h
    constructor
    · simp only [Result.aggregate, Result.failure]
      rw [if_pos (by omega)]
    · simp only [Result.aggregate, Result.failure]
      rw [if_neg (by omega), if_neg (by omega)]
  · intro α i x y
    constructor
    · simp only [Result.aggregate, Result.failure]
      rw [if_neg (by omega)]
      simp
    · exact Finset.union_comm _ _

/-- Claim C1, witness for the amended theorem: a tie of furthest positions
unions the label sets, and a strictly greater furthest failure absorbs a
lesser one in either argument order. -/
theorem aggregate_bookkeeping_amended_witness :
    (((Result.failure 2 "a" : Result Nat).aggregate
        (some (Result.failure 2 "b" : Result Nat))).expected
      = ({"a"} : Finset String) ∪ {"b"})
    ∧ ((Result.failure 3 "u" : Result Nat).aggregate
        (some (Result.failure 1 "v" : Result Nat)) = Result.failure 3 "u")
    ∧ ((Result.failure 1 "v" : Result Nat).aggregate
        (some (Result.failure 3 "u" : Result Nat)) = Result.failure 3 "u") :=
  ⟨(aggregate_bookkeeping_amended.1 Nat Nat (Result.failure 2 "a")
      (Result.failure 2 "b")).2.2.2.2.2.2.1 (by decide),
   (aggregate_bookkeeping_amended.2.1 Nat 3 1 "u" "v" (by decide)).1,
   (aggregate_bookkeeping_amended.2.1 Nat 3 1 "u" "v" (by decide)).2⟩

/-- Claim C2: on input `"d"`, the parser `string("a") | string("b") |
string("c")` run through `parse` raises a `ParseError` whose expectation
set is exactly the three labels of all alternation branches and whose
reported position is index 0. -/
theorem alternation_reports_all_labels :
    (((string "a".toList noop).or (string "b".toList noop)).or (string "c".toList noop)).parse
        "d".toList
      = Except.error (ParseError.mk {"a", "b", "c"} (ParseState.mk "d".toList 0)) := by
  decide

/-- Claim C5: alternation tries the left parser at the original state and
returns its success unchanged (strict left bias); when the left parser
fails -- even after consuming input -- the right parser runs at the same
original state with the left failure aggregated into its outcome; and
concretely `(string("xy") >> string("z")) | string("x")` succeeds on
input `"x"` with value `"x"`. -/
theorem alternation_left_bias :
    (∀ (α : Type) (A B : Parser α) (s : ParseState),
      ((A s).status = true → (A.or B) s = A s)
      ∧ ((A s).status = false → (A.or B) s = (B s).aggregate (some (A s))))
    ∧ (((((string "xy".toList noop).then_ (string "z".toList noop)).or
          (string "x".toList noop)) (ParseState.start "x".toList)).status = true
        ∧ ((((string "xy".toList noop).then_ (string "z".toList noop)).or
            (string "x".toList noop)) (ParseState.start "x".toList)).value
          = some "x".toList) := by
  constructor
  · intro α A B s
    constructor
    · intro h
      simp only [Parser.or, Result.aggregate_none]
      rw [if_pos h]
    · intro h
      simp only [Parser.or, Result.aggregate_none]
      rw [if_neg (by simp [h])]
  · exact ⟨by decide, by decide⟩

/-- Claim C5, witness: left bias and backtracking applied at concrete
parsers and states. -/
theorem alternation_left_bias_witness :
    (((string "x".toList noop).or (string "y".toList noop)) (ParseState.start "x".toList)
      = (string "x".toList noop) (ParseState.start "x".toList))
    ∧ (((string "y".toList noop).or (string "x".toList noop)) (ParseState.start "x".toList)
      = ((string "x".toList noop) (ParseState.start "x".toList)).aggregate
          (some ((string "y".toList noop) (ParseState.start "x".toList)))) :=
  ⟨(alternation_left_bias.1 (List Char) (string "x".toList noop) (string "y".toList noop)
      (ParseState.start "x".toList)).1 (by decide),
   (alternation_left_bias.1 (List Char) (string "y".toList noop) (string "x".toList noop)
      (ParseState.start "x".toList)).2 (by decide)⟩

/-- Claim C6, counterexample.  As a longest-prefix parse,
`string("s").times(min=3, max=5)` on `"ssssssx"` does not fail at all:
`times` simply stops after `max` successes, succeeding with 5 items and
the remainder `"sx"` unconsumed (the `"at most ..."` label belongs to the
`until` combinator, not to `times`). -/
theorem times_over_max_counterexample :
    ((string "s".toList noop).times 3 (some 5)).parse_partial_ "ssssssx".toList
      = Except.ok (List.replicate 5 "s".toList, "sx".toList) := by
  decide

/-- Claim C6, amended: `string("s").times(min=3, max=5)` as a
longest-prefix parse fails on `"ssx"` (only 2 items before the failing
third attempt), yields 3 items with remainder `"x"` on `"sssx"`, yields 5
items on `"sssssx"`, and on `"ssssssx"` succeeds with 5 items and
remainder `"sx"` rather than failing with an `"at most 5"` label. -/
theorem times_boundary_amended :
    (((string "s".toList noop).times 3 (some 5)).parse_partial_ "ssx".toList
      = Except.error (ParseError.mk {"s"} (ParseState.mk "ssx".toList 2)))
    ∧ (((string "s".toList noop).times 3 (some 5)).parse_partial_ "sssx".toList
      = Except.ok (List.replicate 3 "s".toList, "x".toList))
    ∧ (((string "s".toList noop).times 3 (some 5)).parse_partial_ "sssssx".toList
      = Except.ok (List.replicate 5 "s".toList, "x".toList))
    ∧ (((string "s".toList noop).times 3 (some 5)).parse_partial_ "ssssssx".toList
      = Except.ok (List.replicate 5 "s".toList, "sx".toList)) := by
  refine ⟨by decide, by decide, by decide, by decide⟩

/-- Claim C9: whenever a described parser fails, the failure it returns is
exactly `Result.failure` at the attempted position with the single given
label -- so its furthest position is exactly `s.index` and its expected
set is exactly the singleton of the description; whatever deeper furthest
position or labels the child reached are discarded. -/
theorem desc_replaces_failure :
    ∀ (α : Type) (p : Parser α) (d : String) (s : ParseState),
      ((p.desc d) s).status = false → (p.desc d) s = Result.failure s.index d := by
  intro α p d s h
  unfold Parser.desc at h ⊢
  by_cases hp : (p s).status
  · rw [if_pos hp] at h
    exact absurd h (by simp [hp])
  · rw [if_neg hp]

/-- Claim C9, witness: the child sequence `string("x") & string("y")` on
`"xz"` fails at the deeper position 1, while the described parser reports
exactly position 0 with exactly the descriptive label. -/
theorem desc_replaces_failure_witness :
    ((((string "x".toList noop).and (string "y".toList noop)).desc "lbl")
        (ParseState.mk "xz".toList 0)
      = Result.failure 0 "lbl")
    ∧ ((((string "x".toList noop).and (string "y".toList noop))
        (ParseState.mk "xz".toList 0)).furthest = 1) :=
  ⟨desc_replaces_failure (List Char × List Char)
      ((string "x".toList noop).and (string "y".toList noop)) "lbl"
      (ParseState.mk "xz".toList 0) (by decide),
   by decide⟩

/-- Claim C10: when `string(s, transform)` succeeds it always returns the
canonical `s` as its value (never the matched input slice) and advances
exactly `len(s)` characters; concretely, under an uppercasing transform the
input `"ab"`, which differs from the canonical `"AB"`, still yields the
value `"AB"`. -/
theorem string_canonical_value :
    (∀ (s : List Char) (tr : List Char → List Char) (st : ParseState),
      ((string s tr) st).status = true →
        ((string s tr) st).value = some s
        ∧ ((string s tr) st).index = (st.index : Int) + s.length)
    ∧ ((string "AB".toList (List.map Char.toUpper)) (ParseState.start "ab".toList)
        = Result.success 2 "AB".toList)
    ∧ "ab".toList ≠ "AB".toList := by
  refine ⟨?_, by decide, by decide⟩
  intro s tr st h
  unfold string at h ⊢
  by_cases hc : tr ((st.stream.drop st.index).take s.length) = tr s
  · rw [if_pos hc]
    constructor
    · rfl
    · simp [Result.success]
  · rw [if_neg hc] at h
    exact absurd h (by simp [Result.failure])

/-- Claim C10, witness: the general part applied to the uppercasing
example, whose matched slice differs from the canonical string. -/
theorem string_canonical_value_witness :
    ((string "AB".toList (List.map Char.toUpper)) (ParseState.start "ab".toList)).value
      = some "AB".toList
    ∧ ((string "AB".toList (List.map Char.toUpper)) (ParseState.start "ab".toList)).index
      = ((ParseState.start "ab".toList).index : Int) + ("AB".toList).length :=
  string_canonical_value.1 "AB".toList (List.map Char.toUpper)
    (ParseState.start "ab".toList) (by decide)

/-- Claim C4: for every parser in the modelled combinator closure and every
state with `0 <= index <= length(stream)`, a success Result has
`next_position >= s.index`: monotonic progress or no progress, never
regression.  (The index of a `ParseState` is a `Nat`, so `0 <= s.index`
holds by construction.) -/
theorem success_position_monotonic :
    ∀ (α : Type) (p : Parser α), Built p → ∀ s : ParseState,
      s.index ≤ s.stream.length → (p s).status = true →
        (s.index : Int) ≤ (p s).index := by
  intro α p h s _ hs
  exact ((sound_of_built h) s).1 hs

/-- Claim C4, witness: at state index 0 on `"abc"`, the successful
`string("ab")` returns next position `2 >= 0`. -/
theorem success_position_monotonic_witness :
    (((ParseState.start "abc".toList).index : Int)
      ≤ ((string "ab".toList noop) (ParseState.start "abc".toList)).index) :=
  success_position_monotonic (List Char) (string "ab".toList noop)
    (Built.stringP "ab".toList noop) (ParseState.start "abc".toList)
    (by decide) (by decide)

/-- Claim C3: for every parser in the modelled combinator closure and every
state with `0 <= index <= length(stream)`, a failure Result has
`furthest >= s.index` -- a failure never reports a position before the
attempt started (the state itself is immutable by construction, both of the
frozen Python dataclass and of this functional model); and for the
primitive parsers the failing furthest position equals `s.index` exactly. -/
theorem failure_position_sound :
    (∀ (α : Type) (p : Parser α), Built p → ∀ s : ParseState,
      s.index ≤ s.stream.length → (p s).status = false →
        (s.index : Int) ≤ (p s).furthest)
    ∧ (∀ (cs : List Char) (tr : List Char → List Char) (s : ParseState),
        ((string cs tr) s).status = false → ((string cs tr) s).furthest = (s.index : Int))
    ∧ (∀ (func : Char → Bool) (d : String) (s : ParseState),
        ((test_char func d) s).status = false →
          ((test_char func d) s).furthest = (s.index : Int))
    ∧ (∀ s : ParseState, (eof s).status = false → (eof s).furthest = (s.index : Int))
    ∧ (∀ (d : String) (s : ParseState),
        ((fail d) s).status = false → ((fail d) s).furthest = (s.index : Int)) := by
  refine ⟨fun α p h s _ hf => ((sound_of_built h) s).2 hf, ?_, ?_, ?_, ?_⟩
  · intro cs tr s h
    unfold string at h ⊢
    by_cases hc : tr ((s.stream.drop s.index).take cs.length) = tr cs
    · rw [if_pos hc] at h
      exact absurd h (by simp [Result.success])
    · rw [if_neg hc]
      rfl
  · intro func d s h
    unfold test_char at h ⊢
    split_ifs at h ⊢ <;> first | rfl | simp [Result.success] at h
  · intro s h
    unfold eof at h ⊢
    by_cases hc : s.stream.length ≤ s.index
    · rw [if_pos hc] at h
      exact absurd h (by simp [Result.success])
    · rw [if_neg hc]
      rfl
  · intro d s _
    rfl

/-- Claim C3, witness: the failed alternation `string("a") | string("b")`
at index 0 of `"d"` reports furthest position `>= 0`, and the failed
primitive `string("a")` there reports exactly the attempted index. -/
theorem failure_position_sound_witness :
    ((((ParseState.start "d".toList).index : Int)
      ≤ (((string "a".toList noop).or (string "b".toList noop))
          (ParseState.start "d".toList)).furthest))
    ∧ (((string "a".toList noop) (ParseState.start "d".toList)).furthest
      = ((ParseState.start "d".toList).index : Int)) :=
  ⟨failure_position_sound.1 (List Char)
      ((string "a".toList noop).or (string "b".toList noop))
      (Built.orP (Built.stringP "a".toList noop) (Built.stringP "b".toList noop))
      (ParseState.start "d".toList) (by decide) (by decide),
   failure_position_sound.2.1 "a".toList noop (ParseState.start "d".toList) (by decide)⟩

/-- Claim C7: `parse` is `parse_partial` of the parser composed with a
trailing end-of-input check, keeping the value: it returns the value
exactly when `self << eof` succeeds as a longest-prefix parse and raises
exactly its `ParseError` otherwise; concretely, `string("ab")` matches only
a proper prefix of `"abc"`, so `parse` raises (expecting `"EOF"` at index
2) while `parse_partial` succeeds with the value and remainder. -/
theorem parse_whole_input_contract :
    (∀ (α : Type) [Inhabited α] (p : Parser α) (stream : List Char),
      p.parse stream = ((p.skip eof).parse_partial_ stream).map Prod.fst)
    ∧ (∀ (α : Type) [Inhabited α] (p : Parser α) (stream : List Char) (v : α),
        (p.parse stream = Except.ok v ↔
          ∃ rest : List Char, (p.skip eof).parse_partial_ stream = Except.ok (v, rest)))
    ∧ (∀ (α : Type) [Inhabited α] (p : Parser α) (stream : List Char) (e : ParseError),
        (p.parse stream = Except.error e ↔
          (p.skip eof).parse_partial_ stream = Except.error e))
    ∧ ((string "ab".toList noop).parse "abc".toList
        = Except.error (ParseError.mk {"EOF"} (ParseState.mk "abc".toList 2)))
    ∧ ((string "ab".toList noop).parse_partial_ "abc".toList
        = Except.ok ("ab".toList, "c".toList)) := by
  refine ⟨fun α _ p stream => rfl, ?_, ?_, by decide, by decide⟩
  · intro α _ p stream v
    unfold Parser.parse
    cases hr : (p.skip eof).parse_partial_ stream with
    | ok val =>
      simp only [Except.map]
      constructor
      · intro he
        refine ⟨val.2, ?_⟩
        have hv : val.1 = v := by simpa using he
        rw [← hv]
      · rintro ⟨rest, hrest⟩
        have hv : val = (v, rest) := by simpa using hrest
        simp [hv]
    | error e2 =>
      simp [Except.map]
  · intro α _ p stream e
    unfold Parser.parse
    cases hr : (p.skip eof).parse_partial_ stream with
    | ok val =>
      simp [Except.map]
    | error e2 =>
      simp [Except.map]

theorem rfindList_of_not_mem (c : Char) :
    ∀ l : List Char, (∀ x ∈ l, x ≠ c) → rfindList c l = -1 := by
  intro l
  induction l with
  | nil => intro _; rfl
  | cons x xs ih =>
    intro hmem
    have hr : rfindList c xs = -1 := ih (fun y hy => hmem y (List.mem_cons_of_mem x hy))
    have hx : x ≠ c := hmem x (List.mem_cons_self x xs)
    simp [rfindList, hr, hx]

theorem rfindList_append (c : Char) :
    ∀ (before after : List Char), (∀ x ∈ after, x ≠ c) →
      rfindList c (before ++ c :: after) = before.length := by
  intro before
  induction before with
  | nil =>
    intro after h
    have hr : rfindList c after = -1 := rfindList_of_not_mem c after h
    simp [rfindList, hr]
  | cons b bs ih =>
    intro after h
    have hr : rfindList c (bs ++ c :: after) = bs.length := ih after h
    simp [rfindList, hr]

theorem sortedStrings_singleton (a : String) : sortedStrings {a} = [a] := rfl

theorem sortedStrings_sorted (s : Multiset String) :
    List.Sorted pyStrLe (sortedStrings s) :=
  Quot.inductionOn s fun l => List.sorted_insertionSort pyStrLe l

theorem expected_list_singleton (d : String) (st : ParseState) :
    (ParseError.mk {d} st).expected_list = [pyRepr d] := by
  unfold ParseError.expected_list
  rw [Finset.image_singleton]
  rfl

/-- Claim C8: the reported line is the number of newline characters in the
buffer strictly before the index; the column is the offset from the
character after the last preceding newline (the whole index when no
newline precedes); rendering a single label gives
`expected <label> at <line>:<col>`, several labels give
`expected one of <label1>, <label2>, ... at <line>:<col>` with the (repr
of the) labels sorted in the deterministic code point order; everything is
a pure function of the buffer and the index. -/
theorem parse_error_rendering :
    (∀ (stream : List Char) (i : Nat), i ≤ stream.length →
      (line_info_at (ParseState.mk stream i)).1 = (stream.take i).count '\n')
    ∧ (∀ (stream : List Char) (i : Nat) (before after : List Char),
        i ≤ stream.length → stream.take i = before ++ '\n' :: after →
        after.count '\n' = 0 →
        (line_info_at (ParseState.mk stream i)).2 = after.length)
    ∧ (∀ (stream : List Char) (i : Nat), i ≤ stream.length →
        (stream.take i).count '\n' = 0 →
        (line_info_at (ParseState.mk stream i)).2 = i)
    ∧ (∀ (d : String) (st : ParseState),
        ParseError.str (ParseError.mk {d} st)
          = "expected " ++ pyRepr d ++ " at "
              ++ toString (line_info_at st).1 ++ ":" ++ toString (line_info_at st).2)
    ∧ (∀ e : ParseError, List.Sorted pyStrLe e.expected_list)
    ∧ (ParseError.str (ParseError.mk {"a", "b", "c"} (ParseState.mk "d".toList 0))
        = "expected one of " ++ pyRepr "a" ++ ", " ++ pyRepr "b" ++ ", " ++ pyRepr "c"
            ++ " at 0:0") := by
  refine ⟨fun stream i _ => rfl, ?_, ?_, ?_, fun e => sortedStrings_sorted _, by decide⟩
  · intro stream i before after hi htake hcount
    have hmem : ∀ x ∈ after, x ≠ '\n' := by
      intro x hx
      intro hx2
      rw [hx2] at hx
      exact absurd hcount (by simp [List.count_eq_zero, hx])
    have hr : rfind '\n' stream i = before.length := by
      unfold rfind
      rw [htake]
      exact rfindList_append '\n' before after hmem
    have hlen : (stream.take i).length = i := by
      simp [List.length_take]
      omega
    have hlen2 : (stream.take i).length = before.length + 1 + after.length := by
      rw [htake]
      simp
      omega
    unfold line_info_at
    rw [hr]
    simp only
    omega
  · intro stream i hi hcount
    have hmem : ∀ x ∈ stream.take i, x ≠ '\n' := by
      intro x hx hx2
      rw [hx2] at hx
      exact absurd hcount (by simp [List.count_eq_zero, hx])
    have hr : rfind '\n' stream i = -1 := rfindList_of_not_mem '\n' _ hmem
    unfold line_info_at
    rw [hr]
    simp only
    omega
  · intro d st
    unfold ParseError.str ParseError.line_info
    rw [expected_list_singleton]
    simp [String.append_assoc]

/-- Claim C8, witness: on the buffer `"ab\ncd"` at index 4 the line is the
newline count 1 of the prefix and the column is the offset 1 past the
newline; on the newline-free `"ab"` at index 2 the column is the index. -/
theorem parse_error_rendering_witness :
    ((line_info_at (ParseState.mk "ab\ncd".toList 4)).1
      = ("ab\ncd".toList.take 4).count '\n')
    ∧ ((line_info_at (ParseState.mk "ab\ncd".toList 4)).2 = ("c".toList).length)
    ∧ ((line_info_at (ParseState.mk "ab".toList 2)).2 = 2) :=
  ⟨parse_error_rendering.1 "ab\ncd".toList 4 (by decide),
   parse_error_rendering.2.1 "ab\ncd".toList 4 "ab".toList "c".toList
     (by decide) (by decide) (by decide),
   parse_error_rendering.2.2.1 "ab".toList 2 (by decide) (by decide)⟩

end Parsy
